import Mathlib

/-!
Verification of the shrink-ray batch file-shrinking CLI.

The Rust sources are shallowly embedded: strings are `List Char`, machine
integers are `Nat` (with explicit bounds where the code checks them),
fallible operations return `Except`/`Option`, and the effectful parts
(filesystem, child process supervision, terminal) are modelled as pure
state-passing functions over explicit event traces and oracles.
-/

deriving instance DecidableEq for Except

namespace ShrinkRay

/-! ## Decimal numerals

`printNat` is the decimal rendering of a `u64` (Rust `Display`), most
significant digit first; `natOfChars` reads a big-endian digit list back.
-/

/-- Decimal rendering of a natural number, most significant digit first. -/
def printNat (n : Nat) : List Char :=
  if n = 0 then ['0'] else ((Nat.digits 10 n).map Nat.digitChar).reverse

/-- Numeric value of a single decimal digit character. -/
def digitVal (c : Char) : Nat := c.toNat - 48

/-- Value of a big-endian list of decimal digit characters. -/
def natOfChars (l : List Char) : Nat := Nat.ofDigits 10 ((l.map digitVal).reverse)

/-! ## Semantic version model

Modelled from the spec (§4.4, §6): the `semver` crate is an external
dependency; its documented grammar is
`major.minor.patch[-pre][+build]` with numeric fields parsed as `u64`
without leading zeros, pre-release and build metadata being
dot-separated, nonempty identifiers over ASCII alphanumerics and `-`,
numeric pre-release identifiers having no leading zeros. -/

inductive SemverErr
  | emptySegment
  | leadingZero
  | overflow
  | badChar
  | expectedDot
deriving DecidableEq, Repr

/-- Parse a numeric version field (`u64`, no leading zeros). -/
def parseNumeric (l : List Char) : Except SemverErr Nat :=
  if l = [] then .error .emptySegment
  else if ¬ (l.all Char.isDigit) then .error .badChar
  else if 1 < l.length ∧ l.head? = some '0' then .error .leadingZero
  else if natOfChars l ≤ 2 ^ 64 - 1 then .ok (natOfChars l) else .error .overflow

/-- Characters permitted in semver pre-release and build identifiers. -/
def isIdentChar (c : Char) : Bool := c.isAlphanum || c = '-'

/-- A valid pre-release identifier: nonempty, over `isIdentChar`, and when
numeric it carries no leading zero. -/
def validPreIdent (l : List Char) : Bool :=
  !l.isEmpty && l.all isIdentChar &&
    !(l.all Char.isDigit && decide (1 < l.length) && decide (l.head? = some '0'))

/-- A valid build identifier: nonempty, over `isIdentChar`. -/
def validBuildIdent (l : List Char) : Bool :=
  !l.isEmpty && l.all isIdentChar

/-- Join identifier lists with a separator character. -/
def joinSep (sep : Char) : List (List Char) → List Char
  | [] => []
  | [a] => a
  | a :: b :: t => a ++ sep :: joinSep sep (b :: t)

/-- Split a character list at every occurrence of `sep`. -/
def splitOnChar (sep : Char) : List Char → List (List Char)
  | [] => [[]]
  | c :: cs =>
    match splitOnChar sep cs with
    | [] => [[]]
    | h :: t => if c = sep then [] :: h :: t else (c :: h) :: t

/-- A semantic version: `major.minor.patch[-pre][+build]`. -/
structure Version where
  major : Nat
  minor : Nat
  patch : Nat
  pre : List (List Char)
  build : List (List Char)
deriving DecidableEq, Repr

/-- Well-formedness of a version value: numeric fields fit in `u64` and
every identifier is valid. -/
def Version.wf (v : Version) : Prop :=
  v.major ≤ 2 ^ 64 - 1 ∧ v.minor ≤ 2 ^ 64 - 1 ∧ v.patch ≤ 2 ^ 64 - 1 ∧
    v.pre.all validPreIdent = true ∧ v.build.all validBuildIdent = true

instance (v : Version) : Decidable v.wf := by
  unfold Version.wf; infer_instance

/-- Canonical rendering of a version (the `semver` crate `Display`). -/
def printVersion (v : Version) : List Char :=
  printNat v.major ++ '.' :: printNat v.minor ++ '.' :: printNat v.patch
    ++ (if v.pre = [] then [] else '-' :: joinSep '.' v.pre)
    ++ (if v.build = [] then [] else '+' :: joinSep '.' v.build)

/-- Validate a dot-separated identifier section. -/
def checkIdents (validate : List Char → Bool) (l : List Char) : Except SemverErr (List (List Char)) :=
  let ids := splitOnChar '.' l
  if ids.all validate then .ok ids else .error .badChar

/-- Parse a semantic version string (the `semver` crate `FromStr`). -/
def parseVersion (l : List Char) : Except SemverErr Version := do
  let M ← parseNumeric (l.takeWhile Char.isDigit)
  match l.dropWhile Char.isDigit with
  | [] => .error .expectedDot
  | c1 :: r1 =>
    if c1 ≠ '.' then .error .expectedDot else do
    let m ← parseNumeric (r1.takeWhile Char.isDigit)
    match r1.dropWhile Char.isDigit with
    | [] => .error .expectedDot
    | c2 :: r2 =>
      if c2 ≠ '.' then .error .expectedDot else do
      let p ← parseNumeric (r2.takeWhile Char.isDigit)
      match r2.dropWhile Char.isDigit with
      | [] => .ok ⟨M, m, p, [], []⟩
      | c3 :: r3 =>
        if c3 = '-' then do
          let pre ← checkIdents validPreIdent (r3.takeWhile (fun c => c != '+'))
          match r3.dropWhile (fun c => c != '+') with
          | [] => .ok ⟨M, m, p, pre, []⟩
          | _ :: r4 => do
            let b ← checkIdents validBuildIdent r4
            .ok ⟨M, m, p, pre, b⟩
        else if c3 = '+' then do
          let b ← checkIdents validBuildIdent r3
          .ok ⟨M, m, p, [], b⟩
        else .error .badChar

/-! ## Marker codec (src/comment.rs)

`Comment::from_str` checks `s.len() < PREFIX.len() ||
!s[..PREFIX.len()].eq_ignore_ascii_case(PREFIX)` and then parses the rest
as a semver version.  Rust string indexing is byte-based: `s[..11]` panics
when byte index 11 is not a UTF-8 character boundary, which the model makes
explicit by returning `none` there.  The byte-level
`eq_ignore_ascii_case` agrees with the character-level comparison used
here: the pattern is pure ASCII, and any multi-byte character on the other
side makes both comparisons false. -/

inductive CommentParseError
  | notShrinkRay
  | notVersion (e : SemverErr)
deriving DecidableEq, Repr

structure Comment where
  version : Version
deriving DecidableEq, Repr

/-- The marker text `PREFIX` of src/comment.rs, `"shrink-ray/"`. -/
def markerTag : List Char := "shrink-ray/".toList

/-- ASCII lower-casing of a character (`u8::to_ascii_lowercase`). -/
def toLowerAscii (c : Char) : Char :=
  if 'A' ≤ c ∧ c ≤ 'Z' then Char.ofNat (c.toNat + 32) else c

/-- Case-insensitive ASCII comparison (`eq_ignore_ascii_case`). -/
def eqIgnoreAsciiCase : List Char → List Char → Bool
  | [], [] => true
  | a :: as, b :: bs => toLowerAscii a == toLowerAscii b && eqIgnoreAsciiCase as bs
  | _, _ => false

/-- Total UTF-8 byte length of a character list (Rust `str::len`). -/
def byteLen (l : List Char) : Nat := (l.map Char.utf8Size).sum

/-- Whether a byte index falls on a UTF-8 character boundary. -/
def isBoundary : List Char → Nat → Bool
  | _, 0 => true
  | [], _ + 1 => false
  | c :: cs, i + 1 => if c.utf8Size ≤ i + 1 then isBoundary cs (i + 1 - c.utf8Size) else false

/-- The characters making up the first `n` bytes (defined on boundaries). -/
def takeBytes : List Char → Nat → List Char
  | _, 0 => []
  | [], _ + 1 => []
  | c :: cs, i + 1 => c :: takeBytes cs (i + 1 - c.utf8Size)

/-- The characters after the first `n` bytes (defined on boundaries). -/
def dropBytes : List Char → Nat → List Char
  | l, 0 => l
  | [], _ + 1 => []
  | c :: cs, i + 1 => dropBytes cs (i + 1 - c.utf8Size)

/-- Model of `Comment::from_str`; `none` is the byte-slicing panic. -/
def commentFromStr (s : List Char) : Option (Except CommentParseError Comment) :=
  if byteLen s < byteLen markerTag then some (.error .notShrinkRay)
  else if ¬ isBoundary s (byteLen markerTag) then none
  else if ¬ eqIgnoreAsciiCase (takeBytes s (byteLen markerTag)) markerTag then
    some (.error .notShrinkRay)
  else
    match parseVersion (dropBytes s (byteLen markerTag)) with
    | .ok ver => some (.ok ⟨ver⟩)
    | .error e => some (.error (.notVersion e))

/-- Model of the `Display` instance of `Comment`. -/
def commentToString (c : Comment) : List Char := markerTag ++ printVersion c.version

/-! ## Path model

`std::path::Path` restricted to normalized paths whose components are
nonempty plain names (no `.`/`..` components), which covers every path the
program constructs; `"/"` is `⟨true, []⟩` and `""` is `⟨false, []⟩`.
`file_stem`/`extension` split the final component at its last `.`, the
whole name counting as the stem when there is no `.` or only a leading
one. -/

structure RPath where
  absolute : Bool
  components : List (List Char)
deriving DecidableEq, Repr

/-- `Path::parent`: `none` for a root or empty path. -/
def RPath.parent (p : RPath) : Option RPath :=
  match p.components with
  | [] => none
  | _ => some ⟨p.absolute, p.components.dropLast⟩

/-- `Path::file_name`: the final component. -/
def RPath.fileName (p : RPath) : Option (List Char) := p.components.getLast?

/-- Index of the last `.` of a name, if any. -/
def lastDotIdx (name : List Char) : Option Nat :=
  match name.reverse.findIdx? (fun c => c == '.') with
  | none => none
  | some j => some (name.length - 1 - j)

/-- The stem of a file name. -/
def stemOf (name : List Char) : List Char :=
  match lastDotIdx name with
  | none => name
  | some 0 => name
  | some (i + 1) => name.take (i + 1)

/-- The extension of a file name. -/
def extensionOf (name : List Char) : Option (List Char) :=
  match lastDotIdx name with
  | none => none
  | some 0 => none
  | some (i + 1) => some (name.drop (i + 2))

/-- `Path::file_stem`. -/
def RPath.fileStem (p : RPath) : Option (List Char) := p.fileName.map stemOf

/-- `Path::extension`. -/
def RPath.extension (p : RPath) : Option (List Char) :=
  match p.fileName with
  | none => none
  | some n => extensionOf n

/-- `Path::with_extension`: replace the extension of the final component
(an empty extension just removes it); unchanged when there is no file
name. -/
def RPath.withExtension (p : RPath) (ext : List Char) : RPath :=
  match p.components.getLast? with
  | none => p
  | some name =>
    ⟨p.absolute, p.components.dropLast ++
      [if ext = [] then stemOf name else stemOf name ++ '.' :: ext]⟩

/-! ## Temp name allocator (src/temp.rs)

`temp::file` unwraps `path.parent()` and `path.file_stem()` — panicking
when either is absent — then builds `<parent>/<stem>-<rand><suffix>`
candidates until one does not exist.  The random stream and the existence
check are supplied as oracles; `.exhausted` stands for a random stream too
short to find a free name (the Rust loop would keep drawing). -/

inductive TempOutcome
  | panicked
  | exhausted
  | found (p : RPath)
deriving DecidableEq, Repr

/-- One candidate: the stem, a dash, the random chunk and the raw suffix
appended at the string level, inside the parent directory. -/
def tempCandidate (par : RPath) (stem rand : List Char) (suffix : Option (List Char)) : RPath :=
  ⟨par.absolute, par.components ++
    [stem ++ '-' :: (rand ++ (match suffix with | none => [] | some s => s))]⟩

def tempFileGo (suffix : Option (List Char)) (ex : RPath → Bool) (par : RPath)
    (stem : List Char) : List (List Char) → TempOutcome
  | [] => .exhausted
  | r :: rs =>
    if ex (tempCandidate par stem r suffix) then tempFileGo suffix ex par stem rs
    else .found (tempCandidate par stem r suffix)

/-- Model of `temp::file`. -/
def tempFile (base : RPath) (suffix : Option (List Char)) (rands : List (List Char))
    (ex : RPath → Bool) : TempOutcome :=
  match base.parent, base.fileStem with
  | some par, some stem => tempFileGo suffix ex par stem rands
  | _, _ => .panicked

/-! ## Errors and processes -/

/-- An OS exit status; `success` is exit code zero. -/
structure ExitStatus where
  code : Int
deriving DecidableEq, Repr

def ExitStatus.success (s : ExitStatus) : Bool := s.code == 0

/-- An opaque I/O error value. -/
structure IoErr where
  code : Nat
deriving DecidableEq, Repr

/-- The error enum of src/main.rs. -/
inductive MainError
  | inputNotFound (p : RPath)
  | inputIsSymlink (p : RPath)
  | outputExists (p : RPath)
  | toolNotFound (name : List Char)
  | conversion (tool : List Char) (status : ExitStatus)
  | magic (msg : List Char)
  | ioError (e : IoErr)
  | which (e : Nat)
  | nix (errno : Nat)
deriving DecidableEq, Repr

/-- The error enum of src/error.rs, together with the conversion from
`CommentParseError` that src/image.rs applies via
`map_err(crate::Error::from)`. -/
inductive CrateError
  | inputNotFound (p : RPath)
  | inputIsSymlink (p : RPath)
  | outputExists (p : RPath)
  | inputFormatUnknown (p : RPath)
  | binaryNotFound (name : List Char)
  | binaryInEnvNotFound (p : RPath)
  | invocation (tool : List Char) (status : ExitStatus)
  | cancelled
  | magic (msg : List Char)
  | ioError (e : IoErr)
  | which (e : Nat)
  | nix (errno : Nat)
  | commentParse (e : CommentParseError)
deriving DecidableEq, Repr

/-! ## Filesystem model and the replace transaction (src/main.rs) -/

/-- A filesystem: the set of existing regular files. -/
abbrev FS := List RPath

inductive FsOp
  | rename (src dst : RPath)
  | removeFile (p : RPath)
deriving DecidableEq, Repr

/-- Effect of a successful filesystem operation. -/
def fsApply (fs : FS) (op : FsOp) : FS :=
  match op with
  | .rename src dst => dst :: fs.filter (fun q => q ≠ src)
  | .removeFile p => fs.filter (fun q => q ≠ p)

/-- Model of src/main.rs `replace`.  `ioRes` injects the outcome of each
attempted filesystem operation; a failed operation leaves the filesystem
unchanged.  `none` is the panic on `output.extension().unwrap()` or a
random stream too short for the temp-name loop.  Returns the result,
the final filesystem, and the attempted operations in order. -/
def replace (input output : RPath) (fs : FS) (rands : List (List Char))
    (ioRes : FsOp → Option IoErr) :
    Option (Except MainError Unit × FS × List FsOp) :=
  match output.extension with
  | none => none
  | some ext =>
    let destination := input.withExtension ext
    if input ≠ destination ∧ destination ∈ fs then
      some (.error (.outputExists destination), fs, [])
    else
      match tempFile input input.extension rands (fun p => decide (p ∈ fs)) with
      | .panicked => none
      | .exhausted => none
      | .found temp =>
        let op1 := FsOp.rename input temp
        match ioRes op1 with
        | some e => some (.error (.ioError e), fs, [op1])
        | none =>
          let fs1 := fsApply fs op1
          let op2 := FsOp.rename output destination
          match ioRes op2 with
          | some e => some (.error (.ioError e), fs1, [op1, op2])
          | none =>
            let fs2 := fsApply fs1 op2
            let op3 := FsOp.removeFile temp
            match ioRes op3 with
            | some e => some (.error (.ioError e), fs2, [op1, op2, op3])
            | none => some (.ok (), fsApply fs2 op3, [op1, op2, op3])

/-- Model of src/main.rs `run_tool`.  `execRes` is the outcome of
`execute_tool`; `removeRes` is the outcome of the best-effort deletion;
`inputSize`/`outputSize` are the `fs::metadata(..).len()` reads and
`mtimeRes` the outcome of copying the modification time.  The terminal
report between the size reads is not modelled.  Returns the result and
the final filesystem. -/
def runTool (execRes : Except MainError Unit) (output : RPath) (fs : FS)
    (removeRes : Option IoErr) (inputSize outputSize : Except IoErr Nat)
    (mtimeRes : Option IoErr) : Except MainError Bool × FS :=
  match execRes with
  | .error e =>
    if output ∈ fs then
      match removeRes with
      | none => (.error e, fsApply fs (.removeFile output))
      | some _ => (.error e, fs)
    else (.error e, fs)
  | .ok _ =>
    match inputSize with
    | .error ioe => (.error (.ioError ioe), fs)
    | .ok isz =>
      match outputSize with
      | .error ioe => (.error (.ioError ioe), fs)
      | .ok osz =>
        match mtimeRes with
        | some ioe => (.error (.ioError ioe), fs)
        | none => (.ok (osz ≤ isz), fs)

/-! ## Tool selection (src/shrink/mod.rs) and the per-input driver -/

/-- Resolved tools (`ShrinkTool`), each carrying its binary path. -/
inductive ShrinkToolT
  | ffmpeg (bin : RPath)
  | gm (bin : RPath)
deriving DecidableEq, Repr

/-- Decision structure of `ShrinkTool::for_file`, given the identification
result and the (lazily consulted) results of the two binary lookups. -/
def forFile (fmt : Except MainError (Option (List Char)))
    (whichGm whichFfmpeg : Except MainError RPath) :
    Except MainError (Option ShrinkToolT) :=
  match fmt with
  | .error e => .error e
  | .ok none => .ok none
  | .ok (some mime) =>
    if mime = "image/gif".toList then .ok none
    else if "image/".toList.isPrefixOf mime then
      match whichGm with
      | .ok p => .ok (some (.gm p))
      | .error e => .error e
    else if "video/".toList.isPrefixOf mime then
      match whichFfmpeg with
      | .ok p => .ok (some (.ffmpeg p))
      | .error e => .error e
    else .ok none

inductive Effect
  | printedCommand
  | createdDir (d : RPath)
  | invokedTool (t : ShrinkToolT) (input output : RPath)
  | removedFile (p : RPath)
  | replaced (input output : RPath)
deriving DecidableEq, Repr

/-- Skeleton of src/main.rs `run_input`: the existence and symlink checks,
tool selection, dry-run, output-directory creation, tool invocation, the
no-grow deletion and the replace decision.  Oracles supply the outcomes of
the effectful steps; the trace records the attempted effects in order. -/
def runInput (input : RPath) (inputExists inputIsSymlink : Bool)
    (sel : Except MainError (Option ShrinkToolT)) (output : RPath) (dryRun : Bool)
    (dirIsDir : Bool) (mkdirRes : Option IoErr)
    (toolRes : Except MainError Bool) (noGrow : Bool) (removeRes : Option IoErr)
    (shouldReplace : Bool) (replaceRes : Except MainError Unit) :
    Except MainError Unit × List Effect :=
  if ¬ inputExists then (.error (.inputNotFound input), [])
  else if inputIsSymlink then (.error (.inputIsSymlink input), [])
  else match sel with
  | .error e => (.error e, [])
  | .ok none => (.ok (), [])
  | .ok (some tool) =>
    if dryRun then (.ok (), [.printedCommand])
    else
      let dirStep : Except MainError Unit × List Effect :=
        match output.parent with
        | none => (.ok (), [])
        | some dir =>
          let dir2 := if dir.components = [] ∧ dir.absolute = false then ⟨false, [['.']]⟩ else dir
          if ¬ dirIsDir then
            match mkdirRes with
            | some e => (.error (.ioError e), [.createdDir dir2])
            | none => (.ok (), [.createdDir dir2])
          else (.ok (), [])
      match dirStep with
      | (.error e, tr) => (.error e, tr)
      | (.ok _, tr) =>
        let tr2 := tr ++ [.invokedTool tool input output]
        match toolRes with
        | .error e => (.error e, tr2)
        | .ok shrunk =>
          if noGrow ∧ shrunk = false then
            match removeRes with
            | some e => (.error (.ioError e), tr2 ++ [.removedFile output])
            | none => (.ok (), tr2 ++ [.removedFile output])
          else if ¬ shouldReplace then (.ok (), tr2)
          else match replaceRes with
            | .error e => (.error e, tr2 ++ [.replaced input output])
            | .ok _ => (.ok (), tr2 ++ [.replaced input output])

/-! ## Idempotency probe (src/image.rs `get_comment`)

On a successful `gm identify -verbose` run the code finds the first
`"Comment:"` in stdout, takes the rest of that line (`lines().next()`),
trims it, and parses the result — label included — with
`Comment::from_str`. -/

/-- Index of the first occurrence of `pat` (Rust `str::find`), as a
character index (the pattern used is pure ASCII). -/
def findSub (pat : List Char) : List Char → Option Nat
  | [] => if pat = [] then some 0 else none
  | c :: cs =>
    if pat.isPrefixOf (c :: cs) then some 0
    else (findSub pat cs).map (· + 1)

/-- Rust `str::trim` (ASCII whitespace suffices for the strings probed). -/
def trimChars (l : List Char) : List Char :=
  ((l.dropWhile Char.isWhitespace).reverse.dropWhile Char.isWhitespace).reverse

/-- The pattern searched in the identify output. -/
def commentPat : List Char := "Comment:".toList

/-- Model of src/image.rs `get_comment`, as a function of the child
process outcome.  The outer `Option` distinguishes the byte-slicing panic
inside `Comment::from_str`. -/
def gmGetComment (status : ExitStatus) (stdout : List Char) :
    Option (Except CrateError (Option Comment)) :=
  if status.success = false then some (.error (.invocation "gm".toList status))
  else
    match findSub commentPat stdout with
    | none => some (.ok none)
    | some i =>
      match commentFromStr (trimChars ((stdout.drop i).takeWhile (fun ch => ch != '\n'))) with
      | none => none
      | some (.ok c) => some (.ok (some c))
      | some (.error e) => some (.error (.commentParse e))

/-! ## Process supervisor (src/context.rs `Context::run`)

The `tokio::select!` loop is modelled as a fold over an explicit list of
event firings.  Terminal rendering is recorded as a trace of `Terminal`
method calls.  In the source, a `child.wait()` error and a
`read_until` error both propagate with `?` *before* `end_processing`
is called; `end_processing` runs on an observed child exit (both the
normal and the cancelled outcome) and on a fatal `kill` failure. -/

inductive TermOp
  | startProcessing
  | updateProcessing (progress : Nat) (cancel : Bool)
  | writeProcessing (progress : Nat) (cancel : Bool) (line : List Char)
  | endProcessing
deriving DecidableEq, Repr

inductive KillResult
  | ok
  | err (errno : Nat)
deriving DecidableEq, Repr

/-- `nix::errno::Errno::ESRCH`. -/
def ESRCH : Nat := 3

/-- One firing of the `tokio::select!` arms: child exit, the progress
interval, a line read from stderr or stdout, or a `ctrl_c` signal (with
the child id visible at that moment and the result of forwarding
`SIGINT`). -/
inductive RunEvent
  | childExit (res : Except IoErr ExitStatus)
  | tick
  | errLine (res : Except IoErr (List Char))
  | outLine (res : Except IoErr (List Char))
  | ctrlC (childId : Option Nat) (kill : KillResult)
deriving DecidableEq, Repr

/-- The event loop of `Context::run`.  The result is `none` while no
terminal event has fired; the trace accumulates terminal calls.  The
`Output` payload is reduced to the exit status (the stdout/stderr buffers
are cleared at each consumed line and play no part in the claims). -/
def runLoop (cancel : Bool) (progress : Nat) (acc : List TermOp) :
    List RunEvent → Option (Except CrateError ExitStatus) × List TermOp
  | [] => (none, acc)
  | e :: es =>
    match e with
    | .childExit (.error ioe) => (some (.error (.ioError ioe)), acc)
    | .childExit (.ok st) =>
      (some (if cancel then .error .cancelled else .ok st), acc ++ [.endProcessing])
    | .tick => runLoop cancel (progress + 1) (acc ++ [.updateProcessing (progress + 1) cancel]) es
    | .errLine (.error ioe) => (some (.error (.ioError ioe)), acc)
    | .errLine (.ok line) =>
      runLoop cancel progress (acc ++ [.writeProcessing progress cancel line]) es
    | .outLine (.error ioe) => (some (.error (.ioError ioe)), acc)
    | .outLine (.ok line) =>
      runLoop cancel progress (acc ++ [.writeProcessing progress cancel line]) es
    | .ctrlC none _ => runLoop cancel progress acc es
    | .ctrlC (some _) .ok => runLoop true progress acc es
    | .ctrlC (some _) (.err n) =>
      if n = ESRCH then runLoop true progress acc es
      else (some (.error (.nix n)), acc ++ [.endProcessing])

/-- Model of `Context::run`: spawn, emit the initial status line, loop. -/
def contextRun (spawnRes : Except IoErr Unit) (events : List RunEvent) :
    Option (Except CrateError ExitStatus) × List TermOp :=
  match spawnRes with
  | .error e => (some (.error (.ioError e)), [])
  | .ok _ => runLoop false 0 [.startProcessing] events

/-- Events that keep the loop running. -/
def nonTerminalEv : RunEvent → Bool
  | .childExit _ => false
  | .tick => true
  | .errLine (.error _) => false
  | .errLine (.ok _) => true
  | .outLine (.error _) => false
  | .outLine (.ok _) => true
  | .ctrlC none _ => true
  | .ctrlC (some _) .ok => true
  | .ctrlC (some _) (.err n) => n == ESRCH

/-- A cancel signal observed while the child was still alive. -/
def cancelObserved : RunEvent → Bool
  | .ctrlC (some _) _ => true
  | _ => false

/-! ## Statistics (src/stats.rs)

`u64`/`usize` counters are modelled as `Nat`; in the source an addition
overflow is a defect (a debug-build panic), while the subtraction in
`delta` is exactly what the underflow claim is about, so it is the
truncated `Nat` subtraction here. -/

structure Delta where
  original : Nat
  new : Nat
deriving DecidableEq, Repr

def Delta.difference (d : Delta) : Nat :=
  if d.original > d.new then d.original - d.new else d.new - d.original

def Delta.isSmaller (d : Delta) : Bool := d.new ≤ d.original

structure Statistics where
  processed : Nat
  saved : Nat
  wasted : Nat
  shrunk : Nat
  grew : Nat
  skipped : Nat
  failed : Nat
deriving DecidableEq, Repr

/-- `Statistics::default()`: all counters zero. -/
def statsDefault : Statistics := ⟨0, 0, 0, 0, 0, 0, 0⟩

def Statistics.shrink (s : Statistics) (d : Delta) : Statistics :=
  { s with processed := s.processed + d.original, saved := s.saved + d.difference,
           shrunk := s.shrunk + 1 }

def Statistics.grow (s : Statistics) (d : Delta) : Statistics :=
  { s with processed := s.processed + d.original, wasted := s.wasted + d.difference,
           grew := s.grew + 1 }

def Statistics.skip (s : Statistics) : Statistics := { s with skipped := s.skipped + 1 }

def Statistics.fail (s : Statistics) : Statistics := { s with failed := s.failed + 1 }

def Statistics.delta (s : Statistics) : Delta :=
  ⟨s.processed, s.processed - s.saved + s.wasted⟩

/-- The operations the batch driver performs on the accumulator. -/
inductive StatOp
  | shrink (d : Delta)
  | grow (d : Delta)
  | skip
  | fail
deriving DecidableEq, Repr

/-- The usage discipline: `shrink` is called on non-growing deltas and
`grow` on non-shrinking ones. -/
def statOpOk : StatOp → Prop
  | .shrink d => d.new ≤ d.original
  | .grow d => d.original ≤ d.new
  | .skip => True
  | .fail => True

instance (op : StatOp) : Decidable (statOpOk op) := by
  cases op <;> unfold statOpOk <;> infer_instance

def applyStatOp (s : Statistics) : StatOp → Statistics
  | .shrink d => s.shrink d
  | .grow d => s.grow d
  | .skip => s.skip
  | .fail => s.fail

def applyStatOps (s : Statistics) : List StatOp → Statistics
  | [] => s
  | op :: ops => applyStatOps (applyStatOp s op) ops

/-- Total pre-conversion bytes over the shrink/grow operations. -/
def totalOriginal : List StatOp → Nat
  | [] => 0
  | .shrink d :: ops => d.original + totalOriginal ops
  | .grow d :: ops => d.original + totalOriginal ops
  | .skip :: ops => totalOriginal ops
  | .fail :: ops => totalOriginal ops

/-- Total post-conversion bytes over the shrink/grow operations. -/
def totalNewBytes : List StatOp → Nat
  | [] => 0
  | .shrink d :: ops => d.new + totalNewBytes ops
  | .grow d :: ops => d.new + totalNewBytes ops
  | .skip :: ops => totalNewBytes ops
  | .fail :: ops => totalNewBytes ops

/-- Total bytes saved over the shrink operations. -/
def totalSaved : List StatOp → Nat
  | [] => 0
  | .shrink d :: ops => d.difference + totalSaved ops
  | .grow _ :: ops => totalSaved ops
  | .skip :: ops => totalSaved ops
  | .fail :: ops => totalSaved ops

/-- Total bytes wasted over the grow operations. -/
def totalWasted : List StatOp → Nat
  | [] => 0
  | .shrink _ :: ops => totalWasted ops
  | .grow d :: ops => d.difference + totalWasted ops
  | .skip :: ops => totalWasted ops
  | .fail :: ops => totalWasted ops

/-! ## Theorems -/
theorem digitVal_digitChar {d : Nat} (h : d < 10) : digitVal (Nat.digitChar d) = d := by
  interval_cases d <;> rfl

theorem isDigit_digitChar {d : Nat} (h : d < 10) : (Nat.digitChar d).isDigit = true := by
  interval_cases d <;> rfl

theorem digitChar_ne_zero_char {d : Nat} (h : d < 10) (h0 : d ≠ 0) : Nat.digitChar d ≠ '0' := by
  interval_cases d <;> simp_all <;> decide

theorem natOfChars_printNat (n : Nat) : natOfChars (printNat n) = n := by
  by_cases h : n = 0
  · subst h; rfl
  · have hmap : ((Nat.digits 10 n).map Nat.digitChar).map digitVal = Nat.digits 10 n := by
      rw [List.map_map]
      conv_rhs => rw [← List.map_id (Nat.digits 10 n)]
      apply List.map_congr_left
      intro d hd
      exact digitVal_digitChar (Nat.digits_lt_base (by norm_num) hd)
    unfold printNat natOfChars
    rw [if_neg h, List.map_reverse, List.reverse_reverse, hmap, Nat.ofDigits_digits]

theorem printNat_ne_nil (n : Nat) : printNat n ≠ [] := by
  unfold printNat
  by_cases h : n = 0
  · simp [h]
  · simp only [if_neg h, ne_eq, List.reverse_eq_nil_iff, List.map_eq_nil_iff]
    exact Nat.digits_ne_nil_iff_ne_zero.mpr h

theorem printNat_all_digits (n : Nat) : ∀ c ∈ printNat n, c.isDigit = true := by
  intro c hc
  unfold printNat at hc
  by_cases h : n = 0
  · rw [if_pos h] at hc
    simp at hc
    subst hc; rfl
  · rw [if_neg h, List.mem_reverse, List.mem_map] at hc
    obtain ⟨d, hd, rfl⟩ := hc
    exact isDigit_digitChar (Nat.digits_lt_base (by norm_num) hd)

theorem printNat_no_leading_zero (n : Nat) :
    ¬(1 < (printNat n).length ∧ (printNat n).head? = some '0') := by
  rintro ⟨hlen, hhead⟩
  by_cases h : n = 0
  · rw [h] at hlen; simp [printNat] at hlen
  · have hne : Nat.digits 10 n ≠ [] := Nat.digits_ne_nil_iff_ne_zero.mpr h
    have hd0 := Nat.getLast_digit_ne_zero 10 h
    have hmem : (Nat.digits 10 n).getLast hne ∈ Nat.digits 10 n := List.getLast_mem hne
    have hlt : (Nat.digits 10 n).getLast hne < 10 :=
      Nat.digits_lt_base (by norm_num) hmem
    rw [printNat, if_neg h, List.head?_reverse, List.getLast?_map,
      List.getLast?_eq_getLast _ hne, Option.map_some'] at hhead
    exact digitChar_ne_zero_char hlt hd0 (Option.some.injEq _ _ ▸ hhead)

theorem parseNumeric_printNat {n : Nat} (h : n ≤ 2 ^ 64 - 1) :
    parseNumeric (printNat n) = .ok n := by
  unfold parseNumeric
  rw [if_neg (by simpa using printNat_ne_nil n)]
  rw [if_neg (by simp only [not_not, List.all_eq_true]; exact fun c hc => printNat_all_digits n c hc)]
  rw [if_neg (printNat_no_leading_zero n)]
  rw [natOfChars_printNat, if_pos h]

theorem splitOnChar_ne_nil (sep : Char) (l : List Char) : splitOnChar sep l ≠ [] := by
  cases l with
  | nil => simp [splitOnChar]
  | cons c cs =>
    simp only [splitOnChar]
    rcases hcs : splitOnChar sep cs with _ | ⟨h, t⟩
    · simp
    · by_cases hc : c = sep <;> simp [hc]

theorem splitOnChar_no_sep {sep : Char} {l : List Char} (h : sep ∉ l) :
    splitOnChar sep l = [l] := by
  induction l with
  | nil => rfl
  | cons c cs ih =>
    have hcs : sep ∉ cs := fun hm => h (List.mem_cons_of_mem _ hm)
    have hc : c ≠ sep := fun he => h (he ▸ List.mem_cons_self c cs)
    simp only [splitOnChar, ih hcs]
    simp [hc]

theorem splitOnChar_append {sep : Char} {a rest : List Char} (h : sep ∉ a) :
    splitOnChar sep (a ++ sep :: rest) = a :: splitOnChar sep rest := by
  induction a with
  | nil =>
    simp only [List.nil_append, splitOnChar]
    rcases hr : splitOnChar sep rest with _ | ⟨x, t⟩
    · exact absurd hr (splitOnChar_ne_nil sep rest)
    · simp
  | cons c cs ih =>
    have hcs : sep ∉ cs := fun hm => h (List.mem_cons_of_mem _ hm)
    have hc : c ≠ sep := fun he => h (he ▸ List.mem_cons_self c cs)
    simp only [List.cons_append, splitOnChar, List.append_eq]
    rw [ih hcs]
    simp [hc]

theorem splitOnChar_joinSep {sep : Char} {ids : List (List Char)} (hne : ids ≠ [])
    (h : ∀ id ∈ ids, sep ∉ id) : splitOnChar sep (joinSep sep ids) = ids := by
  induction ids with
  | nil => exact absurd rfl hne
  | cons a t ih =>
    cases t with
    | nil =>
      simp only [joinSep]
      exact splitOnChar_no_sep (h a (List.mem_cons_self a []))
    | cons b t2 =>
      have ha : sep ∉ a := h a (List.mem_cons_self _ _)
      simp only [joinSep, splitOnChar_append ha]
      rw [ih (by simp) (fun id hid => h id (List.mem_cons_of_mem _ hid))]

theorem mem_joinSep {sep : Char} {ids : List (List Char)} {c : Char}
    (hc : c ∈ joinSep sep ids) : c = sep ∨ ∃ id ∈ ids, c ∈ id := by
  induction ids with
  | nil => simp [joinSep] at hc
  | cons a t ih =>
    cases t with
    | nil =>
      simp only [joinSep] at hc
      exact Or.inr ⟨a, List.mem_cons_self _ _, hc⟩
    | cons b t2 =>
      simp only [joinSep, List.mem_append, List.mem_cons] at hc
      rcases hc with hc | hc | hc
      · exact Or.inr ⟨a, List.mem_cons_self _ _, hc⟩
      · exact Or.inl hc
      · rcases ih hc with h | ⟨id, hid, hcid⟩
        · exact Or.inl h
        · exact Or.inr ⟨id, List.mem_cons_of_mem _ hid, hcid⟩

theorem takeWhile_append_of_all {p : Char → Bool} {a : List Char} (r : List Char)
    (ha : ∀ c ∈ a, p c = true) :
    (a ++ r).takeWhile p = a ++ r.takeWhile p := by
  induction a with
  | nil => rfl
  | cons c cs ih =>
    simp only [List.cons_append, List.takeWhile_cons, ha c (List.mem_cons_self _ _)]
    simp [ih (fun x hx => ha x (List.mem_cons_of_mem _ hx))]

theorem dropWhile_append_of_all {p : Char → Bool} {a : List Char} (r : List Char)
    (ha : ∀ c ∈ a, p c = true) :
    (a ++ r).dropWhile p = r.dropWhile p := by
  induction a with
  | nil => rfl
  | cons c cs ih =>
    simp only [List.cons_append, List.dropWhile_cons, ha c (List.mem_cons_self _ _)]
    simp [ih (fun x hx => ha x (List.mem_cons_of_mem _ hx))]

theorem takeWhile_append_stop {p : Char → Bool} {a r : List Char} {b : Char}
    (ha : ∀ c ∈ a, p c = true) (hb : p b = false) :
    (a ++ b :: r).takeWhile p = a := by
  rw [takeWhile_append_of_all _ ha, List.takeWhile_cons, hb]
  simp

theorem dropWhile_append_stop {p : Char → Bool} {a r : List Char} {b : Char}
    (ha : ∀ c ∈ a, p c = true) (hb : p b = false) :
    (a ++ b :: r).dropWhile p = b :: r := by
  rw [dropWhile_append_of_all _ ha, List.dropWhile_cons, hb]
  simp

theorem takeWhile_all {p : Char → Bool} {a : List Char} (ha : ∀ c ∈ a, p c = true) :
    a.takeWhile p = a := by
  have := takeWhile_append_of_all (p := p) [] ha
  simpa using this

theorem dropWhile_all {p : Char → Bool} {a : List Char} (ha : ∀ c ∈ a, p c = true) :
    a.dropWhile p = [] := by
  have := dropWhile_append_of_all (p := p) [] ha
  simpa using this

theorem okBind {ε α β : Type} (a : α) (f : α → Except ε β) :
    ((Except.ok a : Except ε α) >>= f) = f a := rfl

theorem validPreIdent_chars {l : List Char} (h : validPreIdent l = true) :
    l.all isIdentChar = true := by
  unfold validPreIdent at h
  simp only [Bool.and_eq_true] at h
  exact h.1.2

theorem validBuildIdent_chars {l : List Char} (h : validBuildIdent l = true) :
    l.all isIdentChar = true := by
  unfold validBuildIdent at h
  simp only [Bool.and_eq_true] at h
  exact h.2

theorem identChars_no_dot {l : List Char} (h : l.all isIdentChar = true) : '.' ∉ l := by
  intro hm
  have := List.all_eq_true.mp h '.' hm
  exact absurd this (by decide)

theorem identChar_ne_plus {c : Char} (h : isIdentChar c = true) : (c != '+') = true := by
  simp only [bne_iff_ne, ne_eq]
  rintro rfl
  exact absurd h (by decide)

theorem joinSep_ident_ne_plus {ids : List (List Char)}
    (h : ∀ id ∈ ids, id.all isIdentChar = true) :
    ∀ c ∈ joinSep '.' ids, (c != '+') = true := by
  intro c hc
  rcases mem_joinSep hc with rfl | ⟨id, hid, hcid⟩
  · decide
  · exact identChar_ne_plus (List.all_eq_true.mp (h id hid) c hcid)

theorem parseVersion_printVersion {v : Version} (hwf : v.wf) :
    parseVersion (printVersion v) = .ok v := by
  obtain ⟨vM, vm, vp, vpre, vbuild⟩ := v
  obtain ⟨hM, hm, hp, hpre, hbuild⟩ := hwf
  simp only at hM hm hp hpre hbuild
  have hMd := printNat_all_digits vM
  have hmd := printNat_all_digits vm
  have hpd := printNat_all_digits vp
  have hpreChars : ∀ id ∈ vpre, id.all isIdentChar = true :=
    fun id hid => validPreIdent_chars (List.all_eq_true.mp hpre id hid)
  have hbuildChars : ∀ id ∈ vbuild, id.all isIdentChar = true :=
    fun id hid => validBuildIdent_chars (List.all_eq_true.mp hbuild id hid)
  have hpreDot : ∀ id ∈ vpre, '.' ∉ id := fun id hid => identChars_no_dot (hpreChars id hid)
  have hbuildDot : ∀ id ∈ vbuild, '.' ∉ id := fun id hid => identChars_no_dot (hbuildChars id hid)
  have hprePlus := joinSep_ident_ne_plus hpreChars
  have hdot : Char.isDigit '.' = false := by decide
  have hdash : Char.isDigit '-' = false := by decide
  have hplus : Char.isDigit '+' = false := by decide
  have hpm : ¬(('+' : Char) = '-') := by decide
  have hS : printVersion ⟨vM, vm, vp, vpre, vbuild⟩ =
      printNat vM ++ '.' :: (printNat vm ++ '.' :: (printNat vp ++
        ((if vpre = [] then [] else '-' :: joinSep '.' vpre) ++
         (if vbuild = [] then [] else '+' :: joinSep '.' vbuild)))) := by
    simp [printVersion, List.append_assoc]
  rw [hS]
  by_cases hpe : vpre = []
  · by_cases hbe : vbuild = []
    · subst hpe; subst hbe
      simp only [eq_self_iff_true, if_true, List.append_nil]
      simp only [parseVersion, takeWhile_append_stop hMd hdot, dropWhile_append_stop hMd hdot,
        parseNumeric_printNat hM, okBind, takeWhile_append_stop hmd hdot,
        dropWhile_append_stop hmd hdot, parseNumeric_printNat hm, okBind,
        takeWhile_all hpd, dropWhile_all hpd, parseNumeric_printNat hp,
        ne_eq, eq_self_iff_true, not_true, if_false]
    · subst hpe
      simp only [eq_self_iff_true, if_true, if_neg hbe, List.nil_append]
      simp only [parseVersion, checkIdents, takeWhile_append_stop hMd hdot,
        dropWhile_append_stop hMd hdot, parseNumeric_printNat hM, okBind,
        takeWhile_append_stop hmd hdot, dropWhile_append_stop hmd hdot,
        parseNumeric_printNat hm, takeWhile_append_stop hpd hplus,
        dropWhile_append_stop hpd hplus, parseNumeric_printNat hp,
        ne_eq, eq_self_iff_true, not_true, if_false, hpm, if_true]
      rw [splitOnChar_joinSep hbe hbuildDot]
      simp only [hbuild, if_true, okBind]
  · by_cases hbe : vbuild = []
    · subst hbe
      simp only [eq_self_iff_true, if_true, if_neg hpe, List.append_nil]
      simp only [parseVersion, checkIdents, takeWhile_append_stop hMd hdot,
        dropWhile_append_stop hMd hdot, parseNumeric_printNat hM, okBind,
        takeWhile_append_stop hmd hdot, dropWhile_append_stop hmd hdot,
        parseNumeric_printNat hm, takeWhile_append_stop hpd hdash,
        dropWhile_append_stop hpd hdash, parseNumeric_printNat hp,
        takeWhile_all hprePlus, dropWhile_all hprePlus,
        ne_eq, eq_self_iff_true, not_true, if_false, if_true]
      rw [splitOnChar_joinSep hpe hpreDot]
      simp only [hpre, if_true, okBind]
    · simp only [if_neg hpe, if_neg hbe]
      have hmid : (joinSep '.' vpre ++ '+' :: joinSep '.' vbuild).takeWhile
          (fun c => c != '+') = joinSep '.' vpre :=
        takeWhile_append_stop hprePlus (by decide)
      have hmid2 : (joinSep '.' vpre ++ '+' :: joinSep '.' vbuild).dropWhile
          (fun c => c != '+') = '+' :: joinSep '.' vbuild :=
        dropWhile_append_stop hprePlus (by decide)
      simp only [List.cons_append, parseVersion, checkIdents,
        takeWhile_append_stop hMd hdot, dropWhile_append_stop hMd hdot,
        parseNumeric_printNat hM, okBind, takeWhile_append_stop hmd hdot,
        dropWhile_append_stop hmd hdot, parseNumeric_printNat hm,
        takeWhile_append_stop hpd hdash, dropWhile_append_stop hpd hdash,
        parseNumeric_printNat hp, hmid, hmid2,
        ne_eq, eq_self_iff_true, not_true, if_false, if_true]
      rw [splitOnChar_joinSep hpe hpreDot, splitOnChar_joinSep hbe hbuildDot]
      simp only [hpre, hbuild, if_true, okBind]

theorem byteLen_append (a b : List Char) : byteLen (a ++ b) = byteLen a + byteLen b := by
  simp [byteLen]

theorem byteLen_cons (c : Char) (cs : List Char) :
    byteLen (c :: cs) = c.utf8Size + byteLen cs := by
  simp [byteLen]

theorem isBoundary_append (l r : List Char) : isBoundary (l ++ r) (byteLen l) = true := by
  induction l with
  | nil => simp [byteLen, isBoundary]
  | cons c cs ih =>
    have h1 : 0 < c.utf8Size := Char.utf8Size_pos c
    obtain ⟨k, hk⟩ : ∃ k, byteLen (c :: cs) = k + 1 :=
      ⟨byteLen (c :: cs) - 1, by rw [byteLen_cons]; omega⟩
    rw [hk]
    have hk2 : c.utf8Size + byteLen cs = k + 1 := by rw [← byteLen_cons, hk]
    simp only [List.cons_append, isBoundary, if_pos (by omega : c.utf8Size ≤ k + 1)]
    have : k + 1 - c.utf8Size = byteLen cs := by omega
    rw [this]
    exact ih

theorem takeBytes_append (l r : List Char) : takeBytes (l ++ r) (byteLen l) = l := by
  induction l with
  | nil => simp [byteLen, takeBytes]
  | cons c cs ih =>
    have h1 : 0 < c.utf8Size := Char.utf8Size_pos c
    obtain ⟨k, hk⟩ : ∃ k, byteLen (c :: cs) = k + 1 :=
      ⟨byteLen (c :: cs) - 1, by rw [byteLen_cons]; omega⟩
    rw [hk]
    have hk2 : c.utf8Size + byteLen cs = k + 1 := by rw [← byteLen_cons, hk]
    simp only [List.cons_append, takeBytes, List.append_eq]
    have : k + 1 - c.utf8Size = byteLen cs := by omega
    rw [this, ih]

theorem dropBytes_append (l r : List Char) : dropBytes (l ++ r) (byteLen l) = r := by
  induction l with
  | nil => simp [byteLen, dropBytes]
  | cons c cs ih =>
    have h1 : 0 < c.utf8Size := Char.utf8Size_pos c
    obtain ⟨k, hk⟩ : ∃ k, byteLen (c :: cs) = k + 1 :=
      ⟨byteLen (c :: cs) - 1, by rw [byteLen_cons]; omega⟩
    rw [hk]
    have hk2 : c.utf8Size + byteLen cs = k + 1 := by rw [← byteLen_cons, hk]
    simp only [List.cons_append, dropBytes, List.append_eq]
    have : k + 1 - c.utf8Size = byteLen cs := by omega
    rw [this, ih]

/-- Formatting then parsing a well-formed marker recovers it. -/
theorem commentFromStr_commentToString {v : Version} (h : v.wf) :
    commentFromStr (commentToString ⟨v⟩) = some (.ok ⟨v⟩) := by
  unfold commentToString commentFromStr
  rw [if_neg (by rw [byteLen_append]; omega)]
  rw [if_neg (by rw [isBoundary_append]; simp)]
  rw [takeBytes_append, dropBytes_append]
  rw [if_neg (by simp only [not_not]; decide)]
  rw [parseVersion_printVersion h]

theorem tempFileGo_ne_panicked (suffix : Option (List Char)) (ex : RPath → Bool)
    (par : RPath) (stem : List Char) (rands : List (List Char)) :
    tempFileGo suffix ex par stem rands ≠ .panicked := by
  induction rands with
  | nil => simp [tempFileGo]
  | cons r rs ih =>
    simp only [tempFileGo]
    by_cases h : ex (tempCandidate par stem r suffix) = true <;> simp [h, ih]

theorem tempFileGo_finds (suffix : Option (List Char)) (ex : RPath → Bool)
    (par : RPath) (stem : List Char) (rands : List (List Char))
    (h : ∃ r ∈ rands, ex (tempCandidate par stem r suffix) = false) :
    ∃ p, tempFileGo suffix ex par stem rands = .found p ∧ ex p = false := by
  induction rands with
  | nil => simp at h
  | cons r rs ih =>
    obtain ⟨r0, hr0, hex⟩ := h
    rcases List.mem_cons.mp hr0 with rfl | hmem
    · by_cases hc : ex (tempCandidate par stem r0 suffix) = true
      · rw [hex] at hc; cases hc
      · exact ⟨tempCandidate par stem r0 suffix, by simp [tempFileGo, hex], hex⟩
    · by_cases hc : ex (tempCandidate par stem r suffix) = true
      · obtain ⟨p, hp, hexp⟩ := ih ⟨r0, hmem, hex⟩
        exact ⟨p, by simp [tempFileGo, hc, hp], hexp⟩
      · refine ⟨tempCandidate par stem r suffix, by simp [tempFileGo, hc], ?_⟩
        simpa using hc

theorem findSub_isPre {pat : List Char} :
    ∀ {l : List Char} {i : Nat}, findSub pat l = some i → pat.isPrefixOf (l.drop i) = true := by
  intro l
  induction l with
  | nil =>
    intro i h
    unfold findSub at h
    by_cases hp : pat = []
    · rw [if_pos hp] at h
      cases h
      simp [hp, List.isPrefixOf]
    · rw [if_neg hp] at h
      cases h
  | cons c cs ih =>
    intro i h
    unfold findSub at h
    by_cases hp : pat.isPrefixOf (c :: cs) = true
    · rw [if_pos hp] at h
      cases h
      simpa using hp
    · rw [if_neg hp] at h
      obtain ⟨j, hj, rfl⟩ := Option.map_eq_some'.mp h
      simpa using ih hj

theorem dropWhile_append_left_nil {p : Char → Bool} {u : List Char} (w : List Char)
    (h : u.dropWhile p = []) : (u ++ w).dropWhile p = w.dropWhile p := by
  induction u with
  | nil => rfl
  | cons c cs ih =>
    rw [List.dropWhile_cons] at h
    rw [List.cons_append, List.dropWhile_cons]
    by_cases hc : p c = true
    · simp only [hc, if_true] at h ⊢
      exact ih h
    · simp [hc] at h

theorem dropWhile_append_left_cons {p : Char → Bool} {u : List Char} {z : Char}
    {zs : List Char} (w : List Char) (h : u.dropWhile p = z :: zs) :
    (u ++ w).dropWhile p = z :: (zs ++ w) := by
  induction u with
  | nil => simp at h
  | cons c cs ih =>
    rw [List.dropWhile_cons] at h
    rw [List.cons_append, List.dropWhile_cons]
    by_cases hc : p c = true
    · simp only [hc, if_true] at h ⊢
      exact ih h
    · simp only [hc, if_false] at h ⊢
      cases h
      simp

/-- Trimming a string that begins with `Comment:` keeps that label. -/
theorem trimChars_commentPat (X : List Char) :
    ∃ Y, trimChars (commentPat ++ X) = commentPat ++ Y := by
  have hL : (commentPat ++ X).dropWhile Char.isWhitespace = commentPat ++ X := by
    have he : commentPat ++ X = 'C' :: ("omment:".toList ++ X) := rfl
    rw [he, List.dropWhile_cons]
    simp [(by decide : Char.isWhitespace 'C' = false)]
  unfold trimChars
  rw [hL, List.reverse_append]
  rcases hD : X.reverse.dropWhile Char.isWhitespace with _ | ⟨z, zs⟩
  · rw [dropWhile_append_left_nil _ hD]
    have hR : commentPat.reverse.dropWhile Char.isWhitespace = commentPat.reverse := by
      have he : commentPat.reverse = ':' :: "tnemmoC".toList := by decide
      rw [he, List.dropWhile_cons]
      simp [(by decide : Char.isWhitespace ':' = false)]
    exact ⟨[], by rw [hR]; simp⟩
  · rw [dropWhile_append_left_cons _ hD]
    exact ⟨(z :: zs).reverse, by simp⟩

theorem takeBytes_cons_of_pos {c : Char} {cs : List Char} {n : Nat} (h : 0 < n) :
    takeBytes (c :: cs) n = c :: takeBytes cs (n - c.utf8Size) := by
  cases n with
  | zero => omega
  | succ m => rfl

theorem eqIgnore_false_of_head {a b : Char} (x y : List Char)
    (h : ¬ toLowerAscii a = toLowerAscii b) :
    eqIgnoreAsciiCase (a :: x) (b :: y) = false := by
  unfold eqIgnoreAsciiCase
  rw [beq_eq_false_iff_ne.mpr h, Bool.false_and]

/-- A string that starts with the probe label `Comment:` never parses as a
marker: the prefix check fails at its first character (or the byte slicing
panics), so `Comment::from_str` cannot return `Ok`. -/
theorem commentFromStr_commentPat_not_ok (Y : List Char) (c : Comment) :
    commentFromStr (commentPat ++ Y) ≠ some (.ok c) := by
  unfold commentFromStr
  by_cases h1 : byteLen (commentPat ++ Y) < byteLen markerTag
  · rw [if_pos h1]; simp
  · rw [if_neg h1]
    by_cases h2 : isBoundary (commentPat ++ Y) (byteLen markerTag) = true
    · rw [if_neg (by simp [h2])]
      have hcons : commentPat ++ Y = 'C' :: ("omment:".toList ++ Y) := rfl
      have htag : markerTag = 's' :: "hrink-ray/".toList := rfl
      have hfalse : eqIgnoreAsciiCase (takeBytes (commentPat ++ Y) (byteLen markerTag))
          markerTag = false := by
        rw [hcons, takeBytes_cons_of_pos (by decide : 0 < byteLen markerTag), htag]
        exact eqIgnore_false_of_head _ _ (by decide)
      rw [if_pos (by simp [hfalse])]
      simp
    · rw [if_pos (by simpa using h2)]
      simp

/-- The probe as a whole can never report a successfully parsed marker,
whatever the tool printed: the extracted line keeps the `Comment:` label. -/
theorem gmGetComment_never_marker (status : ExitStatus) (stdout : List Char) (c : Comment) :
    gmGetComment status stdout ≠ some (.ok (some c)) := by
  unfold gmGetComment
  by_cases hs : status.success = false
  · rw [if_pos hs]; simp
  · rw [if_neg hs]
    split
    · simp
    · next i hf =>
      have hpre := findSub_isPre hf
      obtain ⟨rest, hrest0⟩ := List.isPrefixOf_iff_prefix.mp hpre
      have hrest : stdout.drop i = commentPat ++ rest := hrest0.symm
      have hnl : ∀ ch ∈ commentPat, (ch != '\n') = true := by decide
      obtain ⟨Y, hY⟩ := trimChars_commentPat (rest.takeWhile (fun ch => ch != '\n'))
      have hfull : trimChars ((stdout.drop i).takeWhile (fun ch => ch != '\n')) =
          commentPat ++ Y := by
        rw [hrest, takeWhile_append_of_all _ hnl, hY]
      rw [hfull]
      split
      · simp
      · next c2 hcf => exact absurd hcf (commentFromStr_commentPat_not_ok Y c2)
      · simp

theorem runLoop_cancelled_exit (es : List RunEvent) :
    ∀ (progress : Nat) (acc : List TermOp) (st : ExitStatus),
      es.all nonTerminalEv = true →
      (runLoop true progress acc (es ++ [.childExit (.ok st)])).1 =
        some (.error .cancelled) := by
  induction es with
  | nil => intro progress acc st _; rfl
  | cons e es ih =>
    intro progress acc st hall
    rw [List.all_cons, Bool.and_eq_true] at hall
    obtain ⟨he, hall⟩ := hall
    cases e with
    | childExit res => simp [nonTerminalEv] at he
    | tick => exact ih _ _ _ hall
    | errLine res =>
      cases res with
      | error ioe => simp [nonTerminalEv] at he
      | ok line => exact ih _ _ _ hall
    | outLine res =>
      cases res with
      | error ioe => simp [nonTerminalEv] at he
      | ok line => exact ih _ _ _ hall
    | ctrlC childId k =>
      cases childId with
      | none => exact ih _ _ _ hall
      | some id =>
        cases k with
        | ok => exact ih _ _ _ hall
        | err n =>
          have hn : n = ESRCH := by simpa [nonTerminalEv] using he
          simp only [List.cons_append, runLoop, if_pos hn]
          exact ih _ _ _ hall

theorem runLoop_cancel_observed (es : List RunEvent) :
    ∀ (cancel : Bool) (progress : Nat) (acc : List TermOp) (st : ExitStatus),
      es.all nonTerminalEv = true → es.any cancelObserved = true →
      (runLoop cancel progress acc (es ++ [.childExit (.ok st)])).1 =
        some (.error .cancelled) := by
  induction es with
  | nil => intro _ _ _ _ _ hany; simp at hany
  | cons e es ih =>
    intro cancel progress acc st hall hany
    rw [List.all_cons, Bool.and_eq_true] at hall
    obtain ⟨he, hall⟩ := hall
    cases e with
    | childExit res => simp [nonTerminalEv] at he
    | tick =>
      have hany2 : es.any cancelObserved = true := by simpa [cancelObserved] using hany
      exact ih _ _ _ _ hall hany2
    | errLine res =>
      cases res with
      | error ioe => simp [nonTerminalEv] at he
      | ok line =>
        have hany2 : es.any cancelObserved = true := by simpa [cancelObserved] using hany
        exact ih _ _ _ _ hall hany2
    | outLine res =>
      cases res with
      | error ioe => simp [nonTerminalEv] at he
      | ok line =>
        have hany2 : es.any cancelObserved = true := by simpa [cancelObserved] using hany
        exact ih _ _ _ _ hall hany2
    | ctrlC childId k =>
      cases childId with
      | none =>
        have hany2 : es.any cancelObserved = true := by simpa [cancelObserved] using hany
        exact ih _ _ _ _ hall hany2
      | some id =>
        cases k with
        | ok => exact runLoop_cancelled_exit es _ _ _ hall
        | err n =>
          have hn : n = ESRCH := by simpa [nonTerminalEv] using he
          simp only [List.cons_append, runLoop, if_pos hn]
          exact runLoop_cancelled_exit es _ _ _ hall

theorem runLoop_exit_clears (es : List RunEvent) :
    ∀ (cancel : Bool) (progress : Nat) (acc : List TermOp) (st : ExitStatus),
      es.all nonTerminalEv = true →
      ((runLoop cancel progress acc (es ++ [.childExit (.ok st)])).2).getLast? =
        some .endProcessing := by
  induction es with
  | nil =>
    intro cancel progress acc st _
    simp only [List.nil_append, runLoop]
    exact List.getLast?_concat acc
  | cons e es ih =>
    intro cancel progress acc st hall
    rw [List.all_cons, Bool.and_eq_true] at hall
    obtain ⟨he, hall⟩ := hall
    cases e with
    | childExit res => simp [nonTerminalEv] at he
    | tick => exact ih _ _ _ _ hall
    | errLine res =>
      cases res with
      | error ioe => simp [nonTerminalEv] at he
      | ok line => exact ih _ _ _ _ hall
    | outLine res =>
      cases res with
      | error ioe => simp [nonTerminalEv] at he
      | ok line => exact ih _ _ _ _ hall
    | ctrlC childId k =>
      cases childId with
      | none => exact ih _ _ _ _ hall
      | some id =>
        cases k with
        | ok => exact ih _ _ _ _ hall
        | err n =>
          have hn : n = ESRCH := by simpa [nonTerminalEv] using he
          simp only [List.cons_append, runLoop, if_pos hn]
          exact ih _ _ _ _ hall

theorem runLoop_kill_clears (es : List RunEvent) :
    ∀ (cancel : Bool) (progress : Nat) (acc : List TermOp) (id n : Nat),
      n ≠ ESRCH → es.all nonTerminalEv = true →
      ((runLoop cancel progress acc (es ++ [.ctrlC (some id) (.err n)])).2).getLast? =
        some .endProcessing := by
  induction es with
  | nil =>
    intro cancel progress acc id n hn _
    simp only [List.nil_append, runLoop, if_neg hn]
    exact List.getLast?_concat acc
  | cons e es ih =>
    intro cancel progress acc id n hn hall
    rw [List.all_cons, Bool.and_eq_true] at hall
    obtain ⟨he, hall⟩ := hall
    cases e with
    | childExit res => simp [nonTerminalEv] at he
    | tick => exact ih _ _ _ _ _ hn hall
    | errLine res =>
      cases res with
      | error ioe => simp [nonTerminalEv] at he
      | ok line => exact ih _ _ _ _ _ hn hall
    | outLine res =>
      cases res with
      | error ioe => simp [nonTerminalEv] at he
      | ok line => exact ih _ _ _ _ _ hn hall
    | ctrlC childId k =>
      cases childId with
      | none => exact ih _ _ _ _ _ hn hall
      | some id2 =>
        cases k with
        | ok => exact ih _ _ _ _ _ hn hall
        | err n2 =>
          have hn2 : n2 = ESRCH := by simpa [nonTerminalEv] using he
          simp only [List.cons_append, runLoop, if_pos hn2]
          exact ih _ _ _ _ _ hn hall

theorem runLoop_ioabort (es : List RunEvent) :
    ∀ (cancel : Bool) (progress : Nat) (acc : List TermOp) (e : IoErr) (ev : RunEvent),
      (ev = .errLine (.error e) ∨ ev = .outLine (.error e) ∨ ev = .childExit (.error e)) →
      es.all nonTerminalEv = true → TermOp.endProcessing ∉ acc →
      (runLoop cancel progress acc (es ++ [ev])).1 = some (.error (.ioError e)) ∧
        TermOp.endProcessing ∉ (runLoop cancel progress acc (es ++ [ev])).2 := by
  induction es with
  | nil =>
    intro cancel progress acc e ev hev _ hacc
    rcases hev with rfl | rfl | rfl <;> exact ⟨rfl, hacc⟩
  | cons ev2 es ih =>
    intro cancel progress acc e ev hev hall hacc
    rw [List.all_cons, Bool.and_eq_true] at hall
    obtain ⟨he, hall⟩ := hall
    have hext : ∀ (x : TermOp), x ≠ TermOp.endProcessing →
        TermOp.endProcessing ∉ acc ++ [x] := by
      intro x hx hmem
      rcases List.mem_append.mp hmem with h | h
      · exact hacc h
      · simp at h
        exact hx h.symm
    cases ev2 with
    | childExit res => simp [nonTerminalEv] at he
    | tick => exact ih _ _ _ _ _ hev hall (hext _ (by simp))
    | errLine res =>
      cases res with
      | error ioe => simp [nonTerminalEv] at he
      | ok line => exact ih _ _ _ _ _ hev hall (hext _ (by simp))
    | outLine res =>
      cases res with
      | error ioe => simp [nonTerminalEv] at he
      | ok line => exact ih _ _ _ _ _ hev hall (hext _ (by simp))
    | ctrlC childId k =>
      cases childId with
      | none => exact ih _ _ _ _ _ hev hall hacc
      | some id =>
        cases k with
        | ok => exact ih _ _ _ _ _ hev hall hacc
        | err n =>
          have hn : n = ESRCH := by simpa [nonTerminalEv] using he
          simp only [List.cons_append, runLoop, if_pos hn]
          exact ih _ _ _ _ _ hev hall hacc

theorem applyStatOps_fields (ops : List StatOp) :
    ∀ s : Statistics,
      (applyStatOps s ops).processed = s.processed + totalOriginal ops ∧
      (applyStatOps s ops).saved = s.saved + totalSaved ops ∧
      (applyStatOps s ops).wasted = s.wasted + totalWasted ops := by
  induction ops with
  | nil => intro s; simp [applyStatOps, totalOriginal, totalSaved, totalWasted]
  | cons op ops ih =>
    intro s
    obtain ⟨h1, h2, h3⟩ := ih (applyStatOp s op)
    cases op with
    | shrink d =>
      simp only [applyStatOp, Statistics.shrink] at h1 h2 h3
      refine ⟨?_, ?_, ?_⟩ <;> simp only [applyStatOps, applyStatOp, Statistics.shrink,
        totalOriginal, totalSaved, totalWasted, h1, h2, h3] <;> try omega
    | grow d =>
      simp only [applyStatOp, Statistics.grow] at h1 h2 h3
      refine ⟨?_, ?_, ?_⟩ <;> simp only [applyStatOps, applyStatOp, Statistics.grow,
        totalOriginal, totalSaved, totalWasted, h1, h2, h3] <;> try omega
    | skip =>
      simp only [applyStatOp, Statistics.skip] at h1 h2 h3
      refine ⟨?_, ?_, ?_⟩ <;> simp only [applyStatOps, applyStatOp, Statistics.skip,
        totalOriginal, totalSaved, totalWasted, h1, h2, h3]
    | fail =>
      simp only [applyStatOp, Statistics.fail] at h1 h2 h3
      refine ⟨?_, ?_, ?_⟩ <;> simp only [applyStatOps, applyStatOp, Statistics.fail,
        totalOriginal, totalSaved, totalWasted, h1, h2, h3]

theorem totals_arith (ops : List StatOp) (h : ∀ op ∈ ops, statOpOk op) :
    totalSaved ops ≤ totalOriginal ops ∧
      totalOriginal ops - totalSaved ops + totalWasted ops = totalNewBytes ops := by
  induction ops with
  | nil => simp [totalSaved, totalOriginal, totalWasted, totalNewBytes]
  | cons op ops ih =>
    have hop := h op (List.mem_cons_self _ _)
    have ihs := ih (fun o ho => h o (List.mem_cons_of_mem _ ho))
    cases op with
    | shrink d =>
      have hd : d.new ≤ d.original := hop
      have hdiff : d.difference = d.original - d.new := by
        unfold Delta.difference; split <;> omega
      simp only [totalSaved, totalOriginal, totalWasted, totalNewBytes, hdiff]
      omega
    | grow d =>
      have hd : d.original ≤ d.new := hop
      have hdiff : d.difference = d.new - d.original := by
        unfold Delta.difference; split <;> omega
      simp only [totalSaved, totalOriginal, totalWasted, totalNewBytes, hdiff]
      omega
    | skip => simpa [totalSaved, totalOriginal, totalWasted, totalNewBytes] using ihs
    | fail => simpa [totalSaved, totalOriginal, totalWasted, totalNewBytes] using ihs

/-! ## Claim theorems -/

/-- C1 (amended): when the supervisor observes the child's exit after a
cancel signal was observed while the child was alive (and no forwarding
failure or stream error ended the loop first), the invocation resolves as
Cancelled regardless of the child's OS exit status. -/
theorem supervisor_cancel_precedence_at_exit (pre : List RunEvent) (st : ExitStatus)
    (hall : pre.all nonTerminalEv = true) (hany : pre.any cancelObserved = true) :
    (contextRun (.ok ()) (pre ++ [.childExit (.ok st)])).1 =
      some (.error .cancelled) := by
  unfold contextRun
  exact runLoop_cancel_observed pre false 0 [.startProcessing] st hall hany

/-- Witness for C1's amended theorem: a cancel is forwarded successfully,
then the child exits with an ordinary failure status (code 37); the
invocation still resolves as Cancelled. -/
theorem supervisor_cancel_precedence_at_exit_witness :
    ([RunEvent.ctrlC (some 1) .ok].all nonTerminalEv = true) ∧
    ([RunEvent.ctrlC (some 1) .ok].any cancelObserved = true) ∧
    (contextRun (.ok ()) ([RunEvent.ctrlC (some 1) .ok] ++
      [.childExit (.ok ⟨37⟩)])).1 = some (.error .cancelled) :=
  ⟨by decide, by decide,
    supervisor_cancel_precedence_at_exit [RunEvent.ctrlC (some 1) .ok] ⟨37⟩
      (by decide) (by decide)⟩

/-- C1 (counterexample to the claim as stated): a cancel signal is
observed while the child is alive, but forwarding SIGINT fails with
errno 1 (EPERM); the loop aborts with that error, so the invocation does
not resolve as Cancelled even though a cancel was observed before the
child exit. -/
theorem supervisor_cancel_not_always_cancelled :
    (contextRun (.ok ()) [.ctrlC (some 1) (.err 1),
      .childExit (.ok ⟨0⟩)]).1 = some (.error (.nix 1)) ∧
    (contextRun (.ok ()) [.ctrlC (some 1) (.err 1),
      .childExit (.ok ⟨0⟩)]).1 ≠ some (.error .cancelled) := by
  constructor
  · rfl
  · decide

/-- C5 (amended): the supervisor clears the in-progress status line before
returning when it returns at an observed child exit (normal, failed or
cancelled outcome) and on a fatal signal-forwarding failure; but when
`child.wait()` or a stderr/stdout read returns an I/O error, the error
propagates *before* `end_processing`, and no clear is emitted. -/
theorem supervisor_clear_on_exit_and_kill (pre : List RunEvent)
    (hall : pre.all nonTerminalEv = true) :
    (∀ st : ExitStatus,
      ((contextRun (.ok ()) (pre ++ [.childExit (.ok st)])).2).getLast? =
        some .endProcessing) ∧
    (∀ id n : Nat, n ≠ ESRCH →
      ((contextRun (.ok ()) (pre ++ [.ctrlC (some id) (.err n)])).2).getLast? =
        some .endProcessing) ∧
    (∀ (e : IoErr) (ev : RunEvent),
      (ev = RunEvent.errLine (.error e) ∨ ev = RunEvent.outLine (.error e) ∨
        ev = RunEvent.childExit (.error e)) →
      (contextRun (.ok ()) (pre ++ [ev])).1 = some (.error (.ioError e)) ∧
        TermOp.endProcessing ∉ (contextRun (.ok ()) (pre ++ [ev])).2) := by
  refine ⟨?_, ?_, ?_⟩
  · intro st
    exact runLoop_exit_clears pre false 0 [.startProcessing] st hall
  · intro id n hn
    exact runLoop_kill_clears pre false 0 [.startProcessing] id n hn hall
  · intro e ev hev
    exact runLoop_ioabort pre false 0 [.startProcessing] e ev hev hall (by decide)

/-- Witness for C5's amended theorem at a one-tick prefix. -/
theorem supervisor_clear_on_exit_and_kill_witness :
    ([RunEvent.tick].all nonTerminalEv = true) ∧
    ((contextRun (.ok ()) ([RunEvent.tick] ++ [.childExit (.ok ⟨1⟩)])).2).getLast? =
      some .endProcessing ∧
    ((contextRun (.ok ()) ([RunEvent.tick] ++ [.ctrlC (some 5) (.err 1)])).2).getLast? =
      some .endProcessing ∧
    ((contextRun (.ok ()) ([RunEvent.tick] ++ [.errLine (.error ⟨2⟩)])).1 =
      some (.error (.ioError ⟨2⟩)) ∧
      TermOp.endProcessing ∉ (contextRun (.ok ()) ([RunEvent.tick] ++
        [.errLine (.error ⟨2⟩)])).2) := by
  have h := supervisor_clear_on_exit_and_kill [RunEvent.tick] (by decide)
  exact ⟨by decide, h.1 ⟨1⟩, h.2.1 5 1 (by decide), h.2.2 ⟨2⟩ _ (Or.inl rfl)⟩

/-- C5 (counterexample to the claim as stated): an I/O error while reading
the child's stderr resolves the invocation, yet the in-progress status
line is not cleared — the trace still ends with the initial status
render. -/
theorem supervisor_no_clear_on_stream_error :
    (contextRun (.ok ()) [.errLine (.error ⟨0⟩)]).1 = some (.error (.ioError ⟨0⟩)) ∧
    ((contextRun (.ok ()) [.errLine (.error ⟨0⟩)]).2).getLast? ≠
      some TermOp.endProcessing := by
  constructor
  · rfl
  · decide

/-- C2: the idempotency probe of src/image.rs parses the whole extracted
line — `Comment:` label included — so it can never report an embedded
marker: `get_comment` never returns `Ok(Some(_))`, and on the very output
a marker-carrying file produces (`Comment: shrink-ray/1.2.0`) it returns a
`NotShrinkRay` parse error instead of the marker.  The transaction can
therefore never fail fast with AlreadyConverted, contradicting the
spec's idempotency check and the write path that embeds
`shrink-ray/<version>` via `-comment`. -/
theorem gm_probe_never_reports_marker :
    (∀ (status : ExitStatus) (stdout : List Char) (c : Comment),
      gmGetComment status stdout ≠ some (.ok (some c))) ∧
    gmGetComment ⟨0⟩ ("Comment: shrink-ray/1.2.0".toList) =
      some (.error (.commentParse .notShrinkRay)) := by
  constructor
  · exact gmGetComment_never_marker
  · rfl

/-- C3: when the computed destination differs from the input and already
exists, the replace transaction fails with OutputExists having attempted
no filesystem operation: the filesystem is returned unchanged and the
operation trace is empty. -/
theorem replace_collision_no_mutation (input output : RPath) (fs : FS)
    (rands : List (List Char)) (ioRes : FsOp → Option IoErr) (ext : List Char)
    (hext : output.extension = some ext)
    (hne : input ≠ input.withExtension ext)
    (hmem : input.withExtension ext ∈ fs) :
    replace input output fs rands ioRes =
      some (.error (.outputExists (input.withExtension ext)), fs, []) := by
  unfold replace
  simp only [hext]
  rw [if_pos ⟨hne, hmem⟩]

/-- Witness for C3: replacing `a.jpg` by `b.png` computes destination
`a.png`, which already exists. -/
theorem replace_collision_no_mutation_witness :
    ((RPath.mk false ["b.png".toList]).extension = some ("png".toList)) ∧
    (RPath.mk false ["a.jpg".toList] ≠
      (RPath.mk false ["a.jpg".toList]).withExtension ("png".toList)) ∧
    ((RPath.mk false ["a.jpg".toList]).withExtension ("png".toList) ∈
      ([RPath.mk false ["a.jpg".toList], RPath.mk false ["a.png".toList]] : FS)) ∧
    replace (RPath.mk false ["a.jpg".toList]) (RPath.mk false ["b.png".toList])
      [RPath.mk false ["a.jpg".toList], RPath.mk false ["a.png".toList]]
      [] (fun _ => none) =
      some (.error (.outputExists
        ((RPath.mk false ["a.jpg".toList]).withExtension ("png".toList))),
        [RPath.mk false ["a.jpg".toList], RPath.mk false ["a.png".toList]], []) :=
  ⟨by decide, by decide, by decide,
    replace_collision_no_mutation _ _ _ [] (fun _ => none) _
      (by decide) (by decide) (by decide)⟩

/-- C4 (amended): if deleting the temp copy of the original (step c) fails
after both renames succeeded, `replace` propagates that I/O error to its
caller — the transaction fails — although no data is lost: both the new
file at the destination and the original at the temp path remain on
disk. -/
theorem replace_temp_delete_error_propagates (input output : RPath) (fs : FS)
    (rands : List (List Char)) (ioRes : FsOp → Option IoErr) (ext : List Char)
    (temp : RPath) (e : IoErr)
    (hext : output.extension = some ext)
    (hguard : ¬(input ≠ input.withExtension ext ∧ input.withExtension ext ∈ fs))
    (htemp : tempFile input input.extension rands (fun p => decide (p ∈ fs)) = .found temp)
    (h1 : ioRes (.rename input temp) = none)
    (h2 : ioRes (.rename output (input.withExtension ext)) = none)
    (h3 : ioRes (.removeFile temp) = some e)
    (hto : temp ≠ output) :
    ∃ fs2 : FS, replace input output fs rands ioRes =
        some (.error (.ioError e), fs2,
          [.rename input temp, .rename output (input.withExtension ext),
            .removeFile temp]) ∧
      input.withExtension ext ∈ fs2 ∧ temp ∈ fs2 := by
  refine ⟨(input.withExtension ext) ::
    (fsApply fs (.rename input temp)).filter (fun q => q ≠ output), ?_, ?_, ?_⟩
  · unfold replace
    simp only [hext, if_neg hguard, htemp, h1, h2, h3, fsApply]
  · exact List.mem_cons_self _ _
  · apply List.mem_cons_of_mem
    rw [List.mem_filter]
    exact ⟨List.mem_cons_self _ _, by simpa using hto⟩

/-- Witness for C4's amended theorem: an in-place replace of `a.jpg` where
the final temp-file deletion fails with error 7. -/
theorem replace_temp_delete_error_propagates_witness :
    ∃ fs2 : FS, replace (RPath.mk false ["a.jpg".toList])
        (RPath.mk false ["a-out.jpg".toList])
        [RPath.mk false ["a.jpg".toList], RPath.mk false ["a-out.jpg".toList]]
        ["xxxxxxxx".toList]
        (fun op => match op with | .removeFile _ => some ⟨7⟩ | _ => none) =
        some (.error (.ioError ⟨7⟩), fs2,
          [.rename (RPath.mk false ["a.jpg".toList])
            (RPath.mk false ["a-xxxxxxxxjpg".toList]),
           .rename (RPath.mk false ["a-out.jpg".toList])
            ((RPath.mk false ["a.jpg".toList]).withExtension ("jpg".toList)),
           .removeFile (RPath.mk false ["a-xxxxxxxxjpg".toList])]) ∧
      (RPath.mk false ["a.jpg".toList]).withExtension ("jpg".toList) ∈ fs2 ∧
      RPath.mk false ["a-xxxxxxxxjpg".toList] ∈ fs2 :=
  replace_temp_delete_error_propagates _ _ _ _ _ ("jpg".toList)
    (RPath.mk false ["a-xxxxxxxxjpg".toList]) ⟨7⟩
    (by decide) (by decide) (by decide) (by decide) (by decide) (by decide) (by decide)

/-- C4 (counterexample to the claim as stated): in the same scenario the
transaction does not return success — the deletion failure is propagated
(`fs::remove_file(temp).await?`), not logged-and-swallowed. -/
theorem replace_temp_delete_error_not_success :
    (replace (RPath.mk false ["a.jpg".toList])
        (RPath.mk false ["a-out.jpg".toList])
        [RPath.mk false ["a.jpg".toList], RPath.mk false ["a-out.jpg".toList]]
        ["xxxxxxxx".toList]
        (fun op => match op with | .removeFile _ => some ⟨7⟩ | _ => none)).map
      (fun r => r.1) = some (.error (.ioError ⟨7⟩)) ∧
    (replace (RPath.mk false ["a.jpg".toList])
        (RPath.mk false ["a-out.jpg".toList])
        [RPath.mk false ["a.jpg".toList], RPath.mk false ["a-out.jpg".toList]]
        ["xxxxxxxx".toList]
        (fun op => match op with | .removeFile _ => some ⟨7⟩ | _ => none)).map
      (fun r => r.1) ≠ some (.ok ()) := by
  constructor
  · rfl
  · decide

/-- C6: when the tool invocation fails, `run_tool` propagates the original
error unchanged, and deletes the partially created output exactly when it
exists and the best-effort deletion succeeds (a deletion failure leaves
the file and is only logged). -/
theorem run_tool_propagates_and_cleans (e : MainError) (output : RPath) (fs : FS)
    (removeRes : Option IoErr) (inputSize outputSize : Except IoErr Nat)
    (mtimeRes : Option IoErr) :
    (runTool (.error e) output fs removeRes inputSize outputSize mtimeRes).1 =
      .error e ∧
    (runTool (.error e) output fs removeRes inputSize outputSize mtimeRes).2 =
      (if output ∈ fs ∧ removeRes = none
        then fsApply fs (.removeFile output) else fs) := by
  constructor
  · simp only [runTool]
    by_cases hmem : output ∈ fs
    · rw [if_pos hmem]
      cases removeRes <;> rfl
    · rw [if_neg hmem]
  · simp only [runTool]
    by_cases hmem : output ∈ fs
    · rw [if_pos hmem]
      cases removeRes with
      | none => rw [if_pos ⟨hmem, rfl⟩]
      | some x => rw [if_neg (by simp)]
    · rw [if_neg hmem, if_neg (by simp [hmem])]

/-- C7 (amended): formatting then parsing recovers every well-formed
marker; a string shorter than the prefix, or one whose first prefix-length
bytes sit on a character boundary but do not match `shrink-ray/`
case-insensitively, parses to NotShrinkRay; a matching prefix with an
unparsable version parses to NotVersion.  (When byte index 11 is not a
UTF-8 boundary the parse panics instead — see the counterexample.) -/
theorem marker_codec_roundtrip_and_errors :
    (∀ v : Version, v.wf → commentFromStr (commentToString ⟨v⟩) = some (.ok ⟨v⟩)) ∧
    (∀ s : List Char, byteLen s < byteLen markerTag →
      commentFromStr s = some (.error .notShrinkRay)) ∧
    (∀ s : List Char, byteLen markerTag ≤ byteLen s →
      isBoundary s (byteLen markerTag) = true →
      eqIgnoreAsciiCase (takeBytes s (byteLen markerTag)) markerTag = false →
      commentFromStr s = some (.error .notShrinkRay)) ∧
    (∀ (s : List Char) (e : SemverErr), byteLen markerTag ≤ byteLen s →
      isBoundary s (byteLen markerTag) = true →
      eqIgnoreAsciiCase (takeBytes s (byteLen markerTag)) markerTag = true →
      parseVersion (dropBytes s (byteLen markerTag)) = .error e →
      commentFromStr s = some (.error (.notVersion e))) := by
  refine ⟨?_, ?_, ?_, ?_⟩
  · intro v h
    exact commentFromStr_commentToString h
  · intro s h
    unfold commentFromStr
    rw [if_pos h]
  · intro s h1 h2 h3
    unfold commentFromStr
    rw [if_neg (by omega), if_neg (by simp [h2]), if_pos (by simp [h3])]
  · intro s e h1 h2 h3 h4
    unfold commentFromStr
    rw [if_neg (by omega), if_neg (by simp [h2]), if_neg (by simp [h3]), h4]

/-- Witness for C7's amended theorem: the round trip at `1.2.3`, a short
string, a wrong-prefix ASCII string, and a matching prefix with an
unparsable version. -/
theorem marker_codec_roundtrip_and_errors_witness :
    (Version.mk 1 2 3 [] []).wf ∧
    commentFromStr (commentToString ⟨Version.mk 1 2 3 [] []⟩) =
      some (.ok ⟨Version.mk 1 2 3 [] []⟩) ∧
    (byteLen ("x".toList) < byteLen markerTag ∧
      commentFromStr ("x".toList) = some (.error .notShrinkRay)) ∧
    (eqIgnoreAsciiCase (takeBytes ("definitely-no".toList) (byteLen markerTag))
        markerTag = false ∧
      commentFromStr ("definitely-no".toList) = some (.error .notShrinkRay)) ∧
    (parseVersion (dropBytes ("shrink-ray/abc".toList) (byteLen markerTag)) =
        .error .emptySegment ∧
      commentFromStr ("shrink-ray/abc".toList) =
        some (.error (.notVersion .emptySegment))) := by
  have h := marker_codec_roundtrip_and_errors
  exact ⟨by decide, h.1 _ (by decide), ⟨by decide, h.2.1 _ (by decide)⟩,
    ⟨by decide, h.2.2.1 _ (by decide) (by decide) (by decide)⟩,
    ⟨by decide, h.2.2.2 _ _ (by decide) (by decide) (by decide) (by decide)⟩⟩

/-- C7 (counterexample to the claim as stated): on a string whose byte
index 11 is not a UTF-8 character boundary (ten `a`s followed by `é`),
`Comment::from_str` panics on `s[..PREFIX.len()]` rather than returning
the NotMarker error. -/
theorem marker_parse_panics_on_non_boundary :
    commentFromStr ("aaaaaaaaaa".toList ++ ['é']) = none ∧
    commentFromStr ("aaaaaaaaaa".toList ++ ['é']) ≠
      some (.error .notShrinkRay) := by
  constructor
  · rfl
  · decide

/-- C8: tool selection maps exactly `image/gif` to `Ok(None)`, any other
`image/`-prefixed type to the gm tool, `video/`-prefixed types to the
ffmpeg tool, and everything else to `Ok(None)`; and when selection yields
`Ok(None)` the driver returns success immediately with no tool invoked
and no filesystem effect. -/
theorem tool_selection_table (g f : Except MainError RPath) (mime : List Char) :
    (forFile (.ok (some ("image/gif".toList))) g f = .ok none) ∧
    ("image/".toList.isPrefixOf mime = true → mime ≠ "image/gif".toList →
      forFile (.ok (some mime)) g f =
        Except.map (fun p => some (ShrinkToolT.gm p)) g) ∧
    ("video/".toList.isPrefixOf mime = true →
      forFile (.ok (some mime)) g f =
        Except.map (fun p => some (ShrinkToolT.ffmpeg p)) f) ∧
    (¬ "image/".toList.isPrefixOf mime = true →
      ¬ "video/".toList.isPrefixOf mime = true →
      forFile (.ok (some mime)) g f = .ok none) ∧
    (∀ (input output : RPath) (dryRun dirIsDir : Bool) (mkdirRes : Option IoErr)
      (toolRes : Except MainError Bool) (noGrow : Bool) (removeRes : Option IoErr)
      (shouldReplace : Bool) (replaceRes : Except MainError Unit),
      runInput input true false (.ok none) output dryRun dirIsDir mkdirRes
        toolRes noGrow removeRes shouldReplace replaceRes = (.ok (), [])) := by
  refine ⟨?_, ?_, ?_, ?_, ?_⟩
  · simp [forFile]
  · intro hpre hne
    simp only [forFile]
    rw [if_neg hne, if_pos hpre]
    cases g <;> rfl
  · intro hpre
    obtain ⟨t, ht⟩ := List.isPrefixOf_iff_prefix.mp hpre
    have hne : mime ≠ "image/gif".toList := by
      intro hgif
      have hv : mime.head? = some 'v' := by rw [← ht]; rfl
      rw [hgif] at hv
      exact absurd hv (by decide)
    have hni : ¬ "image/".toList.isPrefixOf mime = true := by
      intro hip
      obtain ⟨t2, ht2⟩ := List.isPrefixOf_iff_prefix.mp hip
      have hv : mime.head? = some 'v' := by rw [← ht]; rfl
      have hi : mime.head? = some 'i' := by rw [← ht2]; rfl
      rw [hv] at hi
      exact absurd hi (by decide)
    simp only [forFile]
    rw [if_neg hne, if_neg hni, if_pos hpre]
    cases f <;> rfl
  · intro h1 h2
    have hne : mime ≠ "image/gif".toList := by
      intro hgif
      exact h1 (by rw [hgif]; decide)
    simp only [forFile]
    rw [if_neg hne, if_neg h1, if_neg h2]
  · intro input output dryRun dirIsDir mkdirRes toolRes noGrow removeRes
      shouldReplace replaceRes
    rfl

/-- Witness for C8: the four rows of the table at concrete MIME types
plus the skip path of the driver. -/
theorem tool_selection_table_witness :
    (forFile (.ok (some ("image/gif".toList))) (.ok (RPath.mk true ["gm".toList]))
      (.ok (RPath.mk true ["ffmpeg".toList])) = .ok none) ∧
    (forFile (.ok (some ("image/png".toList))) (.ok (RPath.mk true ["gm".toList]))
      (.ok (RPath.mk true ["ffmpeg".toList])) =
      .ok (some (.gm (RPath.mk true ["gm".toList])))) ∧
    (forFile (.ok (some ("video/mp4".toList))) (.ok (RPath.mk true ["gm".toList]))
      (.ok (RPath.mk true ["ffmpeg".toList])) =
      .ok (some (.ffmpeg (RPath.mk true ["ffmpeg".toList])))) ∧
    (forFile (.ok (some ("text/plain".toList))) (.ok (RPath.mk true ["gm".toList]))
      (.ok (RPath.mk true ["ffmpeg".toList])) = .ok none) ∧
    (runInput (RPath.mk false ["x.gif".toList]) true false (.ok none)
      (RPath.mk false ["y".toList]) false true none (.ok true) false none true
      (.ok ()) = (.ok (), [])) := by
  refine ⟨?_, ?_, ?_, ?_, ?_⟩
  · exact (tool_selection_table (.ok (RPath.mk true ["gm".toList]))
      (.ok (RPath.mk true ["ffmpeg".toList])) []).1
  · exact ((tool_selection_table (.ok (RPath.mk true ["gm".toList]))
      (.ok (RPath.mk true ["ffmpeg".toList])) ("image/png".toList)).2.1
      (by decide) (by decide)).trans rfl
  · exact ((tool_selection_table (.ok (RPath.mk true ["gm".toList]))
      (.ok (RPath.mk true ["ffmpeg".toList])) ("video/mp4".toList)).2.2.1
      (by decide)).trans rfl
  · exact (tool_selection_table (.ok (RPath.mk true ["gm".toList]))
      (.ok (RPath.mk true ["ffmpeg".toList])) ("text/plain".toList)).2.2.2.1
      (by decide) (by decide)
  · exact (tool_selection_table (.ok (RPath.mk true ["gm".toList]))
      (.ok (RPath.mk true ["ffmpeg".toList])) []).2.2.2.2
      (RPath.mk false ["x.gif".toList]) (RPath.mk false ["y".toList])
      false true none (.ok true) false none true (.ok ())

/-- C9: starting from the default statistics and applying any well-used
sequence of operations, `saved ≤ processed` holds after every prefix, so
`delta` never underflows and returns the total pre-conversion bytes
together with the total post-conversion bytes of all shrunk and grown
files. -/
theorem statistics_invariant_and_delta (ops : List StatOp)
    (h : ∀ op ∈ ops, statOpOk op) :
    (∀ i : Nat, (applyStatOps statsDefault (ops.take i)).saved ≤
      (applyStatOps statsDefault (ops.take i)).processed) ∧
    (applyStatOps statsDefault ops).delta =
      ⟨totalOriginal ops, totalNewBytes ops⟩ := by
  constructor
  · intro i
    have hv : ∀ op ∈ ops.take i, statOpOk op :=
      fun op hop => h op (List.take_subset i ops hop)
    obtain ⟨h1, h2, h3⟩ := applyStatOps_fields (ops.take i) statsDefault
    have harith := totals_arith (ops.take i) hv
    rw [h1, h2]
    simp only [statsDefault]
    omega
  · obtain ⟨h1, h2, h3⟩ := applyStatOps_fields ops statsDefault
    have harith := totals_arith ops h
    unfold Statistics.delta
    rw [h1, h2, h3]
    simp only [statsDefault]
    rw [Delta.mk.injEq]
    exact ⟨by omega, by omega⟩

/-- Witness for C9 at a mixed operation sequence. -/
theorem statistics_invariant_and_delta_witness :
    (∀ op ∈ [StatOp.shrink ⟨10, 4⟩, StatOp.grow ⟨3, 5⟩, StatOp.skip, StatOp.fail],
      statOpOk op) ∧
    (applyStatOps statsDefault ([StatOp.shrink ⟨10, 4⟩, StatOp.grow ⟨3, 5⟩,
      StatOp.skip, StatOp.fail].take 2)).saved ≤
      (applyStatOps statsDefault ([StatOp.shrink ⟨10, 4⟩, StatOp.grow ⟨3, 5⟩,
        StatOp.skip, StatOp.fail].take 2)).processed ∧
    (applyStatOps statsDefault [StatOp.shrink ⟨10, 4⟩, StatOp.grow ⟨3, 5⟩,
      StatOp.skip, StatOp.fail]).delta = ⟨13, 9⟩ := by
  have h := statistics_invariant_and_delta
    [StatOp.shrink ⟨10, 4⟩, StatOp.grow ⟨3, 5⟩, StatOp.skip, StatOp.fail] (by decide)
  exact ⟨by decide, h.1 2, by rw [h.2]; decide⟩

/-- C10: the temp-name allocator panics exactly when the base path has no
parent directory or no file stem (for example `/` or the empty path); when
both exist and the random stream offers a free candidate, it returns a
path that does not exist. -/
theorem temp_file_panic_iff (base : RPath) (suffix : Option (List Char))
    (rands : List (List Char)) (ex : RPath → Bool) :
    (tempFile base suffix rands ex = .panicked ↔
      base.parent = none ∨ base.fileStem = none) ∧
    (∀ (par : RPath) (stem : List Char), base.parent = some par →
      base.fileStem = some stem →
      (∃ r ∈ rands, ex (tempCandidate par stem r suffix) = false) →
      ∃ p, tempFile base suffix rands ex = .found p ∧ ex p = false) := by
  constructor
  · cases hp : base.parent with
    | none =>
      constructor
      · intro _
        exact Or.inl rfl
      · intro _
        simp [tempFile, hp]
    | some par =>
      cases hs : base.fileStem with
      | none =>
        constructor
        · intro _
          exact Or.inr rfl
        · intro _
          simp [tempFile, hp, hs]
      | some stem =>
        constructor
        · intro hcontra
          have heq : tempFile base suffix rands ex =
              tempFileGo suffix ex par stem rands := by
            simp [tempFile, hp, hs]
          rw [heq] at hcontra
          exact absurd hcontra (tempFileGo_ne_panicked _ _ _ _ _)
        · rintro (h | h)
          · exact Option.noConfusion h
          · exact Option.noConfusion h
  · intro par stem hp hs hex
    have heq : tempFile base suffix rands ex =
        tempFileGo suffix ex par stem rands := by
      simp [tempFile, hp, hs]
    rw [heq]
    exact tempFileGo_finds _ _ _ _ _ hex

/-- Witness for C10: `/` and the empty path panic; `a.jpg` with a free
random candidate succeeds. -/
theorem temp_file_panic_iff_witness :
    (tempFile ⟨true, []⟩ none [] (fun _ => false) = .panicked) ∧
    (tempFile ⟨false, []⟩ none [] (fun _ => false) = .panicked) ∧
    (∃ p, tempFile ⟨false, ["a.jpg".toList]⟩ (some ("jpg".toList))
      ["rrrrrrrr".toList] (fun _ => false) = .found p ∧
      (fun (_ : RPath) => false) p = false) := by
  refine ⟨?_, ?_, ?_⟩
  · exact (temp_file_panic_iff ⟨true, []⟩ none [] (fun _ => false)).1.mpr (Or.inl rfl)
  · exact (temp_file_panic_iff ⟨false, []⟩ none [] (fun _ => false)).1.mpr (Or.inl rfl)
  · exact (temp_file_panic_iff ⟨false, ["a.jpg".toList]⟩ (some ("jpg".toList))
      ["rrrrrrrr".toList] (fun _ => false)).2 ⟨false, []⟩ ("a".toList)
      (by decide) (by decide) ⟨"rrrrrrrr".toList, by decide, by decide⟩

end ShrinkRay
